import Mathlib

/-!
# Expense aggregation engine of the budget-tracker dashboard

Shallow embedding of the pure data-derivation pipeline of
`src/app/(dashboard)/page.tsx`: the search filter (lines 161-171), the
category grouping with per-group date sort and label sort (lines 174-194),
the month grouping nested by category with newest-first month order
(lines 196-231), the monthly chart totals (lines 233-251), the grand total
(line 49), and the per-month / per-category totals computed at render time
(lines 390-393 and 419-423).

Modelling decisions, stated once here:

* JS numbers (`amount`) are embedded as `ℚ` (exact arithmetic); floating
  point rounding is outside the model.
* A record's `date` string is embedded already parsed, as a calendar triple
  `CalDate` (year/month/day).  `new Date(s).getTime()` is embedded as the
  order-preserving key `dateVal` (valid for in-range month/day fields; the
  source's behaviour on unparseable date strings is not modelled).
* `String.prototype.toLowerCase` / `toLocaleLowerCase` are embedded as
  per-character ASCII lowering (`lowerStr`), and `localeCompare` on the
  lowered strings as code-point lexicographic comparison (`charListLe`).
* JS plain objects used as dictionaries are embedded as association lists
  in property-creation order, except that enumeration (`Object.keys`,
  `Object.values`, `Object.entries`) follows the ECMAScript own-property
  order: keys that are canonical array indices (canonical decimal strings
  of integers `< 2^32 - 1`) come first in ascending numeric order, then the
  remaining string keys in creation order.  This is `jsEnumOrder`.
* `Array.prototype.sort` is stable (ES2019); it is embedded as the stable
  insertion sort `stableSortBy le` with `le a b ↔ cmp a b ≤ 0`.
* `toLocaleDateString('en-US', { month: 'long', year: 'numeric' })` is
  embedded as `monthLabel`: the long month name, a space, and the year in
  un-padded decimal.  `new Date(label).getTime()` applied to such a label
  (line 227) is embedded via `parseMonthLabel` / `labelVal`.
-/

/-! ## Character and string helpers -/

/-- ASCII lowercasing of a string, the model of `toLowerCase` /
`toLocaleLowerCase`. -/
def lowerStr (s : String) : String :=
  String.mk (s.data.map Char.toLower)

/-- `startsList pat l` is true iff `pat` occurs at the very start of `l`. -/
def startsList (pat l : List Char) : Bool :=
  decide (pat.length ≤ l.length) && (pat.zip l).all (fun pr => pr.1 == pr.2)

/-- `subList pat l` is true iff `pat` occurs contiguously somewhere in `l`;
the model of `String.prototype.includes`. -/
def subList (pat : List Char) : List Char → Bool
  | [] => pat.isEmpty
  | c :: rest => startsList pat (c :: rest) || subList pat rest

/-- `strIncludes s pat` models the JS `s.includes(pat)`. -/
def strIncludes (s pat : String) : Bool :=
  subList pat.data s.data

/-- Code-point lexicographic `≤` on character lists; the model of the
order induced by `localeCompare` on the (already lowercased) labels. -/
def charListLe : List Char → List Char → Bool
  | [], _ => true
  | _ :: _, [] => false
  | a :: as, b :: bs =>
    if a.toNat < b.toNat then true
    else if b.toNat < a.toNat then false
    else charListLe as bs

/-- Split a character list at its first space: `splitAtSpace cs = (a, b)`
where `cs = a ++ ' ' :: b` when `cs` contains a space (`a` space-free),
and `(cs, [])` otherwise. -/
def splitAtSpace : List Char → List Char × List Char
  | [] => ([], [])
  | c :: cs =>
    if c == ' ' then ([], cs)
    else
      let p := splitAtSpace cs
      (c :: p.1, p.2)

/-! ## Decimal digits: rendering and parsing of the year -/

/-- The decimal digit character of a value `0..9` (code point `48 + n`). -/
def digitChar (n : Nat) : Char :=
  Char.ofNat (48 + n % 10)

/-- The numeric value of a decimal digit character, `none` otherwise. -/
def charVal (c : Char) : Option Nat :=
  if 48 ≤ c.toNat ∧ c.toNat ≤ 57 then some (c.toNat - 48) else none

/-- Fuelled big-endian decimal digit rendering (`fuel > n` suffices). -/
def natDigitsGo : Nat → Nat → List Char
  | 0, _ => []
  | fuel + 1, n =>
    if n < 10 then [digitChar n]
    else natDigitsGo fuel (n / 10) ++ [digitChar (n % 10)]

/-- Big-endian decimal digits of `n`, un-padded (`"0"` for `0`). -/
def natDigitsBE (n : Nat) : List Char :=
  natDigitsGo (n + 1) n

/-- Un-padded decimal rendering of a natural number. -/
def natToStr (n : Nat) : String :=
  String.mk (natDigitsBE n)

/-- Accumulator loop of decimal parsing; fails on any non-digit. -/
def parseNatAux : Nat → List Char → Option Nat
  | acc, [] => some acc
  | acc, c :: cs =>
    match charVal c with
    | some d => parseNatAux (acc * 10 + d) cs
    | none => none

/-- Parse a non-empty all-digit character list as a natural number. -/
def parseNatL (l : List Char) : Option Nat :=
  if l.isEmpty then none else parseNatAux 0 l

/-! ## Data model -/

/-- A calendar date (the already-parsed form of the record's `date`
string). -/
structure CalDate where
  year : Nat
  month : Nat
  day : Nat
deriving DecidableEq, Repr

/-- Order-preserving numeric key of a calendar date, the embedding of
`new Date(d).getTime()`: strictly monotone in (year, month, day)
lexicographic order whenever `month ≤ 12` and `day ≤ 31`. -/
def dateVal (d : CalDate) : Nat :=
  (d.year * 12 + (d.month - 1)) * 32 + d.day

/-- In-range month and day fields (any date a JS `Date` can actually
represent for this app satisfies this). -/
def validDate (d : CalDate) : Prop :=
  1 ≤ d.month ∧ d.month ≤ 12 ∧ 1 ≤ d.day ∧ d.day ≤ 31

instance (d : CalDate) : Decidable (validDate d) := by
  unfold validDate; infer_instance

/-- The `Expense` row type (page.tsx lines 20-29); `user_id` and
`created_at` are not consumed by the derivation pipeline and are
omitted. -/
structure Expense where
  id : String
  title : String
  amount : ℚ
  category : String
  date : CalDate
  notes : Option String
deriving DecidableEq, Repr

/-! ## TotalCalculator -/

/-- `records.reduce((sum, exp) => sum + exp.amount, 0)` — the reduce shape
used at lines 49, 392-393 and 420-423. -/
def sumAmounts (l : List Expense) : ℚ :=
  l.foldl (fun s e => s + e.amount) 0

/-- `totalSpent` (line 49), computed from the unfiltered `expenses`. -/
def totalSpent (expenses : List Expense) : ℚ :=
  sumAmounts expenses

/-! ## SearchFilter (lines 161-171) -/

/-- The filter callback: `!searchTerm` short-circuits to `true` (only the
empty string is falsy), otherwise a case-insensitive substring test on
title, category and the optional notes. -/
def matchesQuery (searchTerm : String) (exp : Expense) : Bool :=
  if searchTerm == "" then true
  else
    let text := lowerStr searchTerm
    strIncludes (lowerStr exp.title) text ||
    strIncludes (lowerStr exp.category) text ||
    ((exp.notes.map (fun n => strIncludes (lowerStr n) text)).getD false)

/-- `filteredExpenses` (lines 161-171) as a function of the record set and
the search term. -/
def filterExpenses (expenses : List Expense) (searchTerm : String) : List Expense :=
  expenses.filter (matchesQuery searchTerm)

/-- Stated from the spec's words for claim C3 (§4.1): a record is kept iff
any of `title`, `category`, `notes` (missing notes treated as empty)
contains the lowercased query as a case-insensitive substring. -/
def specMatches (q : String) (e : Expense) : Bool :=
  strIncludes (lowerStr e.title) (lowerStr q) ||
  strIncludes (lowerStr e.category) (lowerStr q) ||
  strIncludes (lowerStr (e.notes.getD "")) (lowerStr q)

/-! ## Generic insertion-ordered dictionary fold

All three `forEach`-into-an-object builds of the source (categories,
months-with-nested-categories, monthly totals) have the same shape:
look the key up, create the entry if absent (JS objects append new keys
in creation order), then push into / update the entry. -/

/-- `obj[key]` presence test. -/
def hasKey (k : String) (l : List (String × β)) : Bool :=
  l.any (fun p => p.1 == k)

/-- Update (in place) the value stored at key `k`. -/
def updAssoc (k : String) (f : β → β) : List (String × β) → List (String × β)
  | [] => []
  | (k', v) :: rest =>
    if k' == k then (k', f v) :: rest else (k', v) :: updAssoc k f rest

/-- One `forEach` step of a keyed build: create-if-absent then update. -/
def groupStep (key : α → String) (init : α → β) (push : β → α → β)
    (acc : List (String × β)) (a : α) : List (String × β) :=
  if hasKey (key a) acc then updAssoc (key a) (fun b => push b a) acc
  else acc ++ [(key a, init a)]

/-- The whole keyed build over the input list. -/
def groupBy (key : α → String) (init : α → β) (push : β → α → β)
    (l : List α) : List (String × β) :=
  l.foldl (groupStep key init push) []

/-- Duplicate removal keeping first occurrences in order; used to state
the first-encounter-order properties. -/
def firstSeenGo (seen : List String) : List String → List String
  | [] => []
  | a :: rest =>
    if seen.contains a then firstSeenGo seen rest
    else a :: firstSeenGo (a :: seen) rest

/-- The keys of the input in first-encounter order. -/
def firstSeen (l : List String) : List String :=
  firstSeenGo [] l

/-! ## JS own-property enumeration order

`Object.keys/values/entries` enumerate own keys with canonical array
indices (canonical decimal strings of integers below `2^32 - 1`) first in
ascending numeric order, then other string keys in creation order. -/

/-- Is `s` a canonical array-index key? -/
def isIndexKey (s : String) : Bool :=
  match parseNatL s.data with
  | some n => natToStr n == s && decide (n ≤ 4294967294)
  | none => false

/-- Numeric value used to order array-index keys. -/
def keyNum (s : String) : Nat :=
  (parseNatL s.data).getD 0

/-! ## Stable sort (model of `Array.prototype.sort`, stable per ES2019) -/

/-- Insert `a` after every element `b` of the (sorted) list with
`le b a`; the element being inserted arrived later, so it lands after
elements that compare equal. -/
def insertOrd (le : α → α → Bool) (a : α) : List α → List α
  | [] => [a]
  | b :: bs => if le b a then b :: insertOrd le a bs else a :: b :: bs

/-- Stable sort by the total boolean preorder `le`. -/
def stableSortBy (le : α → α → Bool) (l : List α) : List α :=
  l.foldl (fun acc a => insertOrd le a acc) []

/-- Enumeration reordering applied by `Object.keys/values/entries`. -/
def jsEnumOrder (l : List (String × β)) : List (String × β) :=
  stableSortBy (fun a b => decide (keyNum a.1 ≤ keyNum b.1))
    (l.filter (fun p => isIndexKey p.1))
  ++ l.filter (fun p => !isIndexKey p.1)

/-! ## CategoryAggregator (lines 174-194) -/

/-- The category grouping key: `exp.category.toLowerCase()` (line 177). -/
def catKey (e : Expense) : String :=
  lowerStr e.category

/-- A category group: `{ display, items }` (line 179). -/
structure CatGroup where
  display : String
  items : List Expense
deriving DecidableEq, Repr

/-- `expensesByCategory` (lines 174-182): keyed by normalized category,
`display` fixed to the first record's verbatim category text, items pushed
in input order. -/
def expensesByCategory (records : List Expense) : List (String × CatGroup) :=
  groupBy catKey (fun e => ⟨e.category, [e]⟩)
    (fun g e => ⟨g.display, g.items ++ [e]⟩) records

/-- Comparator of the per-category item sort (line 186):
`(a, b) => new Date(b.date).getTime() - new Date(a.date).getTime()`,
i.e. date descending. -/
def dateDescLe (a b : Expense) : Bool :=
  decide (dateVal b.date ≤ dateVal a.date)

/-- Lines 184-187: sort each group's items by date descending. -/
def catItemsSorted (records : List Expense) : List (String × CatGroup) :=
  (expensesByCategory records).map
    (fun p => (p.1, ⟨p.2.display, stableSortBy dateDescLe p.2.items⟩))

/-- Comparator of the group sort (lines 190-194):
`a.display.toLocaleLowerCase().localeCompare(b.display.toLocaleLowerCase())`. -/
def catLe (a b : CatGroup) : Bool :=
  charListLe (lowerStr a.display).data (lowerStr b.display).data

/-- `sortedCategories` (lines 189-194): `Object.values` of the
item-sorted groups, sorted by lowercased display label. -/
def sortedCategories (records : List Expense) : List CatGroup :=
  stableSortBy catLe ((jsEnumOrder (catItemsSorted records)).map (fun p => p.2))

/-- The per-group total, the `reduce` of lines 420-423 applied to a
group's items. -/
def categoryTotal (items : List Expense) : ℚ :=
  sumAmounts items

/-! ## Month labels (lines 204-207, 237-240) -/

/-- `en-US` long month names, `monthNames.get! (m-1)` for month `m`. -/
def monthNames : List String :=
  ["January", "February", "March", "April", "May", "June",
   "July", "August", "September", "October", "November", "December"]

/-- The long month name of month `m ∈ 1..12` (and `""` outside that
range, which no in-range date produces). -/
def monthName : Nat → String
  | 1 => "January" | 2 => "February" | 3 => "March" | 4 => "April"
  | 5 => "May" | 6 => "June" | 7 => "July" | 8 => "August"
  | 9 => "September" | 10 => "October" | 11 => "November" | 12 => "December"
  | _ => ""

/-- `new Date(exp.date).toLocaleDateString('en-US', { month: 'long',
year: 'numeric' })`: long month name, space, un-padded decimal year. -/
def monthLabel (d : CalDate) : String :=
  String.mk ((monthName d.month).data ++ ' ' :: natDigitsBE d.year)

/-- The month bucket key of a record. -/
def monthKeyOf (e : Expense) : String :=
  monthLabel e.date

/-- Recover the month number from a long month name. -/
def monthIdxOf (s : String) : Option Nat :=
  (monthNames.findIdx? (fun n => n == s)).map (fun i => i + 1)

/-- The model of `new Date(label)` for a "MonthName year" label:
`some (year, month)` when the text before the first space is a long month
name and the rest is a decimal year. -/
def parseMonthLabel (s : String) : Option (Nat × Nat) :=
  let p := splitAtSpace s.data
  match monthIdxOf (String.mk p.1), parseNatL p.2 with
  | some m, some y => some (y, m)
  | _, _ => none

/-- Numeric sort key of a month label: monotone in (year, month)
lexicographic order, the embedding of `new Date(label).getTime()`
(line 227). -/
def labelVal (s : String) : Nat :=
  match parseMonthLabel s with
  | some (y, m) => y * 12 + m
  | none => 0

/-! ## MonthAggregator (lines 196-231) -/

/-- One step of the nested per-month category build (lines 214-222):
key by `exp.category.toLocaleLowerCase()`, create `[]` if absent, push. -/
def cellStep (cats : List (String × List Expense)) (e : Expense) :
    List (String × List Expense) :=
  groupStep catKey (fun e' => [e']) (fun l e' => l ++ [e']) cats e

/-- `expensesByMonth` (lines 196-223): keyed by month label, each month
holding a nested category-keyed dictionary of item lists. -/
def expensesByMonth (records : List Expense) :
    List (String × List (String × List Expense)) :=
  groupBy monthKeyOf (fun e => cellStep [] e) cellStep records

/-- Comparator of the month sort (line 227):
`(a, b) => new Date(b).getTime() - new Date(a).getTime()` on labels. -/
def monthDescLe (a b : String × List (String × List Expense)) : Bool :=
  decide (labelVal b.1 ≤ labelVal a.1)

/-- `sortedMonths` (lines 226-231): `Object.keys` of the month dictionary
sorted newest first, each paired with its category dictionary. -/
def sortedMonths (records : List Expense) :
    List (String × List (String × List Expense)) :=
  stableSortBy monthDescLe (jsEnumOrder (expensesByMonth records))

/-- The category cells of one month as rendered:
`Object.entries(month.categories)` (line 419). -/
def monthCells (m : String × List (String × List Expense)) :
    List (String × List Expense) :=
  jsEnumOrder m.2

/-- `monthTotal` (lines 391-393):
`Object.values(month.categories).flat().reduce(...)`. -/
def monthTotal (m : String × List (String × List Expense)) : ℚ :=
  sumAmounts (((jsEnumOrder m.2).map (fun c => c.2)).flatten)

/-! ## SeriesBuilder (lines 233-251) — over the unfiltered records -/

/-- `monthlyTotals` (lines 233-247): per-month-label running sums over
the unfiltered `expenses` (the `!monthlyTotals[m]` falsiness test only
re-assigns `0` over an existing `0`, which changes nothing). -/
def monthlyTotals (expenses : List Expense) : List (String × ℚ) :=
  groupBy monthKeyOf (fun e => 0 + e.amount) (fun v e => v + e.amount) expenses

/-- `monthLabels = Object.keys(monthlyTotals)` (line 250). -/
def monthLabels (expenses : List Expense) : List String :=
  (jsEnumOrder (monthlyTotals expenses)).map (fun p => p.1)

/-- `monthValues = Object.values(monthlyTotals)` (line 251). -/
def monthValues (expenses : List Expense) : List ℚ :=
  (jsEnumOrder (monthlyTotals expenses)).map (fun p => p.2)

/-! ## The dashboard's derived views as one pure function -/

/-- Everything the component derives from `(expenses, searchTerm)`. -/
structure DashboardView where
  filtered : List Expense
  categories : List CatGroup
  months : List (String × List (String × List Expense))
  chartLabels : List String
  chartValues : List ℚ
  total : ℚ
deriving Repr

/-- The derivation pipeline of the render body: breakdowns consume the
filtered set, the chart series and grand total consume the unfiltered
`expenses` (lines 49, 161-251). -/
def dashboard (expenses : List Expense) (searchTerm : String) : DashboardView :=
  let filtered := filterExpenses expenses searchTerm
  { filtered := filtered
    categories := sortedCategories filtered
    months := sortedMonths filtered
    chartLabels := monthLabels expenses
    chartValues := monthValues expenses
    total := totalSpent expenses }

/-! ## Basic lemmas: strings, digits, labels -/

theorem string_data_eq_nil_iff (s : String) : s.data = [] ↔ s = "" := by
  cases s
  simp [String.ext_iff]

theorem lowerStr_data (s : String) : (lowerStr s).data = s.data.map Char.toLower := rfl

theorem subList_nil (pat : List Char) : subList pat [] = pat.isEmpty := rfl

theorem digit_round : ∀ n, n < 10 → charVal (digitChar n) = some n := by decide

theorem parseNatAux_append (l₁ l₂ : List Char) (acc : Nat) :
    parseNatAux acc (l₁ ++ l₂) =
      match parseNatAux acc l₁ with
      | some a => parseNatAux a l₂
      | none => none := by
  induction l₁ generalizing acc with
  | nil => simp [parseNatAux]
  | cons c cs ih =>
    simp only [List.cons_append, parseNatAux]
    cases charVal c with
    | some d => exact ih _
    | none => rfl

theorem natDigitsGo_ne_nil (fuel n : Nat) (h : n < fuel) : natDigitsGo fuel n ≠ [] := by
  cases fuel with
  | zero => omega
  | succ f =>
    unfold natDigitsGo
    split
    · simp
    · simp

theorem parseNatAux_digits (fuel : Nat) : ∀ n acc, n < fuel →
    parseNatAux acc (natDigitsGo fuel n) =
      some (acc * 10 ^ (natDigitsGo fuel n).length + n) := by
  induction fuel with
  | zero => intro n acc h; omega
  | succ f ih =>
    intro n acc h
    unfold natDigitsGo
    by_cases h10 : n < 10
    · simp only [if_pos h10]
      simp [parseNatAux, digit_round n h10]
    · simp only [if_neg h10]
      have hdiv : n / 10 < f := by
        have h1 : n / 10 < n := Nat.div_lt_self (by omega) (by omega)
        omega
      rw [parseNatAux_append]
      rw [ih (n / 10) acc hdiv]
      have hmod : n % 10 < 10 := Nat.mod_lt _ (by omega)
      simp only [parseNatAux, digit_round (n % 10) hmod]
      have hdm : 10 * (n / 10) + n % 10 = n := Nat.div_add_mod n 10
      have : (natDigitsGo f (n / 10) ++ [digitChar (n % 10)]).length
          = (natDigitsGo f (n / 10)).length + 1 := by simp
      rw [this, pow_succ]
      congr 1
      ring_nf
      omega

theorem parseNatL_digits (n : Nat) : parseNatL (natDigitsBE n) = some n := by
  unfold parseNatL natDigitsBE
  have hne := natDigitsGo_ne_nil (n + 1) n (by omega)
  rw [if_neg (by simpa [List.isEmpty_iff] using hne)]
  have := parseNatAux_digits (n + 1) n 0 (by omega)
  simpa using this

theorem parseNatAux_none_of_mem (l : List Char) (c : Char) (hc : c ∈ l)
    (h : charVal c = none) : ∀ acc, parseNatAux acc l = none := by
  induction l with
  | nil => cases hc
  | cons d ds ih =>
    intro acc
    simp only [parseNatAux]
    rcases List.mem_cons.mp hc with rfl | hmem
    · rw [h]
    · cases hv : charVal d with
      | some k => exact ih hmem _
      | none => rfl

theorem parseNatL_none_of_mem (l : List Char) (c : Char) (hc : c ∈ l)
    (h : charVal c = none) : parseNatL l = none := by
  unfold parseNatL
  split
  · rfl
  · exact parseNatAux_none_of_mem l c hc h 0

theorem splitAtSpace_append (xs ys : List Char) (h : ' ' ∉ xs) :
    splitAtSpace (xs ++ ' ' :: ys) = (xs, ys) := by
  induction xs with
  | nil => simp [splitAtSpace]
  | cons c cs ih =>
    have hc : c ≠ ' ' := fun hh => h (hh ▸ List.mem_cons_self c cs)
    simp only [List.cons_append, splitAtSpace, beq_iff_eq, if_neg hc, List.append_eq]
    rw [ih (fun hm => h (List.mem_cons_of_mem c hm))]

theorem monthName_no_space : ∀ m, m < 13 → ' ' ∉ (monthName m).data := by decide

theorem monthIdxOf_name : ∀ m, m < 13 → 1 ≤ m → monthIdxOf (monthName m) = some m := by
  decide

theorem monthLabel_data (d : CalDate) :
    (monthLabel d).data = (monthName d.month).data ++ ' ' :: natDigitsBE d.year := rfl

theorem parseMonthLabel_round (d : CalDate) (h1 : 1 ≤ d.month) (h2 : d.month ≤ 12) :
    parseMonthLabel (monthLabel d) = some (d.year, d.month) := by
  unfold parseMonthLabel
  rw [monthLabel_data,
    splitAtSpace_append _ _ (monthName_no_space d.month (by omega))]
  simp only []
  have : String.mk (monthName d.month).data = monthName d.month := rfl
  rw [this, monthIdxOf_name d.month (by omega) h1, parseNatL_digits]

theorem labelVal_monthLabel (d : CalDate) (h1 : 1 ≤ d.month) (h2 : d.month ≤ 12) :
    labelVal (monthLabel d) = d.year * 12 + d.month := by
  unfold labelVal
  rw [parseMonthLabel_round d h1 h2]

theorem monthLabel_inj (d₁ d₂ : CalDate) (h₁ : 1 ≤ d₁.month) (h₂ : d₁.month ≤ 12)
    (h₃ : 1 ≤ d₂.month) (h₄ : d₂.month ≤ 12) (h : monthLabel d₁ = monthLabel d₂) :
    d₁.year = d₂.year ∧ d₁.month = d₂.month := by
  have e1 := parseMonthLabel_round d₁ h₁ h₂
  have e2 := parseMonthLabel_round d₂ h₃ h₄
  rw [h, e2] at e1
  have := Option.some.inj e1
  exact ⟨(congrArg Prod.fst this).symm, (congrArg Prod.snd this).symm⟩

theorem space_mem_monthLabel (d : CalDate) : ' ' ∈ (monthLabel d).data := by
  rw [monthLabel_data]
  exact List.mem_append.mpr (Or.inr (List.mem_cons_self _ _))

theorem isIndexKey_monthLabel (d : CalDate) : isIndexKey (monthLabel d) = false := by
  unfold isIndexKey
  rw [parseNatL_none_of_mem _ ' ' (space_mem_monthLabel d) rfl]

/-! ## firstSeen lemmas -/

theorem mem_firstSeenGo (b : String) (l : List String) : ∀ seen,
    b ∈ firstSeenGo seen l ↔ b ∈ l ∧ b ∉ seen := by
  induction l with
  | nil => intro seen; simp [firstSeenGo]
  | cons a rest ih =>
    intro seen
    simp only [firstSeenGo]
    split
    · rename_i hmem
      rw [ih seen]
      have ha : a ∈ seen := List.elem_iff.mp hmem
      constructor
      · rintro ⟨hb, hs⟩; exact ⟨List.mem_cons_of_mem a hb, hs⟩
      · rintro ⟨hb, hs⟩
        rcases List.mem_cons.mp hb with rfl | hb'
        · exact absurd ha hs
        · exact ⟨hb', hs⟩
    · rename_i hmem
      have ha : a ∉ seen := fun hc => hmem (List.elem_iff.mpr hc)
      rw [List.mem_cons, ih (a :: seen)]
      constructor
      · rintro (rfl | ⟨hb, hs⟩)
        · exact ⟨List.mem_cons_self b rest, ha⟩
        · exact ⟨List.mem_cons_of_mem a hb,
            fun hc => hs (List.mem_cons_of_mem a hc)⟩
      · rintro ⟨hb, hs⟩
        by_cases hba : b = a
        · exact Or.inl hba
        · rcases List.mem_cons.mp hb with rfl | hb'
          · exact Or.inl rfl
          · refine Or.inr ⟨hb', fun hc => ?_⟩
            rcases List.mem_cons.mp hc with rfl | hc'
            · exact hba rfl
            · exact hs hc'

theorem mem_firstSeen (b : String) (l : List String) : b ∈ firstSeen l ↔ b ∈ l := by
  unfold firstSeen
  rw [mem_firstSeenGo]
  simp

theorem nodup_firstSeenGo (l : List String) : ∀ seen, (firstSeenGo seen l).Nodup := by
  induction l with
  | nil => intro seen; simp [firstSeenGo]
  | cons a rest ih =>
    intro seen
    simp only [firstSeenGo]
    split
    · exact ih seen
    · refine List.nodup_cons.mpr ⟨fun hc => ?_, ih (a :: seen)⟩
      exact ((mem_firstSeenGo a rest (a :: seen)).mp hc).2 (List.mem_cons_self a seen)

theorem nodup_firstSeen (l : List String) : (firstSeen l).Nodup :=
  nodup_firstSeenGo l []

theorem firstSeenGo_append_singleton (l : List String) (a : String) : ∀ seen,
    firstSeenGo seen (l ++ [a]) =
      firstSeenGo seen l ++ (if a ∈ seen ∨ a ∈ l then [] else [a]) := by
  induction l with
  | nil =>
    intro seen
    simp only [List.nil_append, firstSeenGo]
    by_cases h : a ∈ seen
    · rw [if_pos (List.elem_iff.mpr h)]
      simp [h, firstSeenGo]
    · rw [if_neg (fun hc => h (List.elem_iff.mp hc))]
      simp [h, firstSeenGo]
  | cons x xs ih =>
    intro seen
    simp only [List.cons_append, firstSeenGo, List.append_eq]
    split
    · rename_i hx
      have hxs : x ∈ seen := List.elem_iff.mp hx
      rw [ih seen]
      congr 1
      by_cases ha : a ∈ seen ∨ a ∈ xs
      · rw [if_pos ha, if_pos]
        rcases ha with h | h
        · exact Or.inl h
        · exact Or.inr (List.mem_cons_of_mem x h)
      · rw [if_neg ha, if_neg]
        rintro (h | h)
        · exact ha (Or.inl h)
        · rcases List.mem_cons.mp h with rfl | h'
          · exact ha (Or.inl hxs)
          · exact ha (Or.inr h')
    · rename_i hx
      rw [ih (x :: seen)]
      simp only [List.cons_append]
      congr 2
      by_cases ha : a ∈ x :: seen ∨ a ∈ xs
      · rw [if_pos ha, if_pos]
        rcases ha with h | h
        · rcases List.mem_cons.mp h with rfl | h'
          · exact Or.inr (List.mem_cons_self a xs)
          · exact Or.inl h'
        · exact Or.inr (List.mem_cons_of_mem x h)
      · rw [if_neg ha, if_neg]
        rintro (h | h)
        · exact ha (Or.inl (List.mem_cons_of_mem x h))
        · rcases List.mem_cons.mp h with rfl | h'
          · exact ha (Or.inl (List.mem_cons_self a seen))
          · exact ha (Or.inr h')

theorem firstSeen_append_singleton (l : List String) (a : String) :
    firstSeen (l ++ [a]) = if a ∈ l then firstSeen l else firstSeen l ++ [a] := by
  unfold firstSeen
  rw [firstSeenGo_append_singleton l a []]
  by_cases h : a ∈ l
  · simp [h]
  · simp [h]

/-! ## Comparator properties -/

theorem charListLe_total (a b : List Char) : charListLe a b = true ∨ charListLe b a = true := by
  induction a generalizing b with
  | nil => exact Or.inl rfl
  | cons x xs ih =>
    cases b with
    | nil => exact Or.inr rfl
    | cons y ys =>
      simp only [charListLe]
      rcases Nat.lt_trichotomy x.toNat y.toNat with h | h | h
      · left; rw [if_pos h]
      · rw [if_neg (by omega), if_neg (by omega), if_neg (by omega), if_neg (by omega)]
        exact ih ys
      · right; rw [if_pos h]

theorem charListLe_trans (a b c : List Char) (hab : charListLe a b = true)
    (hbc : charListLe b c = true) : charListLe a c = true := by
  induction a generalizing b c with
  | nil => rfl
  | cons x xs ih =>
    cases b with
    | nil => exact absurd hab (by simp [charListLe])
    | cons y ys =>
      cases c with
      | nil => exact absurd hbc (by simp [charListLe])
      | cons z zs =>
        simp only [charListLe] at hab hbc ⊢
        by_cases h1 : x.toNat < y.toNat
        · by_cases h2 : y.toNat < z.toNat
          · rw [if_pos (by omega)]
          · by_cases h3 : z.toNat < y.toNat
            · rw [if_neg h2, if_pos h3] at hbc
              exact absurd hbc (by simp)
            · rw [if_pos (by omega)]
        · by_cases h4 : y.toNat < x.toNat
          · rw [if_neg h1, if_pos h4] at hab
            exact absurd hab (by simp)
          · rw [if_neg h1, if_neg h4] at hab
            by_cases h2 : y.toNat < z.toNat
            · rw [if_pos (by omega)]
            · by_cases h3 : z.toNat < y.toNat
              · rw [if_neg h2, if_pos h3] at hbc
                exact absurd hbc (by simp)
              · rw [if_neg h2, if_neg h3] at hbc
                rw [if_neg (by omega), if_neg (by omega)]
                exact ih ys zs hab hbc

/-! ## stableSortBy: permutation, sortedness, stability -/

theorem insertOrd_perm (le : α → α → Bool) (a : α) (l : List α) :
    (insertOrd le a l).Perm (a :: l) := by
  induction l with
  | nil => exact List.Perm.refl _
  | cons b bs ih =>
    simp only [insertOrd]
    split
    · exact ((ih.cons b).trans (List.Perm.swap a b bs)).symm.symm
    · exact List.Perm.refl _

theorem stableSortBy_perm_aux (le : α → α → Bool) (l : List α) : ∀ acc,
    (l.foldl (fun acc a => insertOrd le a acc) acc).Perm (acc ++ l) := by
  induction l with
  | nil => intro acc; simp
  | cons x xs ih =>
    intro acc
    simp only [List.foldl_cons]
    refine (ih (insertOrd le x acc)).trans ?_
    refine (List.Perm.append (insertOrd_perm le x acc) (List.Perm.refl xs)).trans ?_
    exact List.perm_middle.symm

theorem stableSortBy_perm (le : α → α → Bool) (l : List α) :
    (stableSortBy le l).Perm l := by
  simpa using stableSortBy_perm_aux le l []

theorem insertOrd_pairwise (le : α → α → Bool)
    (htot : ∀ a b, le a b = true ∨ le b a = true)
    (htrans : ∀ a b c, le a b = true → le b c = true → le a c = true)
    (a : α) (l : List α) (h : l.Pairwise (fun x y => le x y = true)) :
    (insertOrd le a l).Pairwise (fun x y => le x y = true) := by
  induction l with
  | nil => simp [insertOrd]
  | cons b bs ih =>
    rcases List.pairwise_cons.mp h with ⟨hb, hbs⟩
    simp only [insertOrd]
    split
    · rename_i hba
      refine List.pairwise_cons.mpr ⟨?_, ih hbs⟩
      intro y hy
      have hy' := (insertOrd_perm le a bs).mem_iff.mp hy
      rcases List.mem_cons.mp hy' with rfl | hy''
      · exact hba
      · exact hb y hy''
    · rename_i hba
      have hab : le a b = true := by
        rcases htot a b with h' | h'
        · exact h'
        · exact absurd h' hba
      refine List.pairwise_cons.mpr ⟨?_, h⟩
      intro y hy
      rcases List.mem_cons.mp hy with rfl | hy'
      · exact hab
      · exact htrans a b y hab (hb y hy')

theorem stableSortBy_pairwise (le : α → α → Bool)
    (htot : ∀ a b, le a b = true ∨ le b a = true)
    (htrans : ∀ a b c, le a b = true → le b c = true → le a c = true)
    (l : List α) : (stableSortBy le l).Pairwise (fun x y => le x y = true) := by
  have main : ∀ (l' : List α) (acc : List α),
      acc.Pairwise (fun x y => le x y = true) →
      (l'.foldl (fun acc a => insertOrd le a acc) acc).Pairwise
        (fun x y => le x y = true) := by
    intro l'
    induction l' with
    | nil => intro acc h; simpa using h
    | cons x xs ih =>
      intro acc h
      simp only [List.foldl_cons]
      exact ih _ (insertOrd_pairwise le htot htrans x acc h)
  exact main l [] (List.Pairwise.nil)

theorem insertOrd_filter (le : α → α → Bool) (p : α → Bool)
    (htrans : ∀ a b c, le a b = true → le b c = true → le a c = true)
    (hp : ∀ a b, p a = true → p b = true → le a b = true ∧ le b a = true)
    (a : α) (l : List α) (hs : l.Pairwise (fun x y => le x y = true)) :
    (insertOrd le a l).filter p =
      l.filter p ++ (if p a then [a] else []) := by
  induction l with
  | nil => simp [insertOrd, List.filter_cons]
  | cons b bs ih =>
    rcases List.pairwise_cons.mp hs with ⟨hb, hbs⟩
    simp only [insertOrd]
    split
    · rename_i hba
      rw [List.filter_cons, List.filter_cons]
      split
      · simp only [List.cons_append]
        rw [ih hbs]
      · rw [ih hbs]
    · rename_i hba
      by_cases hpa : p a = true
      · have hnone : (b :: bs).filter p = [] := by
          rw [List.filter_eq_nil_iff]
          intro y hy hpy
          rcases List.mem_cons.mp hy with rfl | hy'
          · exact hba (hp a y hpa hpy).2
          · exact hba (htrans b y a (hb y hy') (hp a y hpa hpy).2)
        rw [List.filter_cons_of_pos hpa, hnone]
        simp [hpa]
      · have hpa' : p a = false := by
          cases h : p a
          · rfl
          · exact absurd h hpa
        rw [List.filter_cons_of_neg (by simp [hpa'])]
        simp [hpa']

theorem stableSortBy_filter (le : α → α → Bool) (p : α → Bool)
    (htot : ∀ a b, le a b = true ∨ le b a = true)
    (htrans : ∀ a b c, le a b = true → le b c = true → le a c = true)
    (hp : ∀ a b, p a = true → p b = true → le a b = true ∧ le b a = true)
    (l : List α) : (stableSortBy le l).filter p = l.filter p := by
  have main : ∀ (l' : List α) (acc : List α),
      acc.Pairwise (fun x y => le x y = true) →
      (l'.foldl (fun acc a => insertOrd le a acc) acc).filter p =
        acc.filter p ++ l'.filter p := by
    intro l'
    induction l' with
    | nil => intro acc h; simp
    | cons x xs ih =>
      intro acc h
      simp only [List.foldl_cons]
      rw [ih _ (insertOrd_pairwise le htot htrans x acc h),
        insertOrd_filter le p htrans hp x acc h, List.filter_cons]
      split
      · rename_i hx
        simp [hx]
      · rename_i hx
        simp at hx
        simp [hx]
  simpa using main l [] List.Pairwise.nil

/-! ## jsEnumOrder lemmas -/

theorem jsEnumOrder_perm (l : List (String × β)) : (jsEnumOrder l).Perm l := by
  unfold jsEnumOrder
  refine (List.Perm.append (stableSortBy_perm _ _) (List.Perm.refl _)).trans ?_
  exact List.filter_append_perm _ l

theorem jsEnumOrder_eq_self (l : List (String × β))
    (h : ∀ p ∈ l, isIndexKey p.1 = false) : jsEnumOrder l = l := by
  unfold jsEnumOrder
  have h1 : l.filter (fun p => isIndexKey p.1) = [] := by
    rw [List.filter_eq_nil_iff]
    intro p hp
    simp [h p hp]
  have h2 : l.filter (fun p => !isIndexKey p.1) = l := by
    rw [List.filter_eq_self]
    intro p hp
    simp [h p hp]
  rw [h1, h2]
  simp [stableSortBy]

/-! ## Characterization of the keyed builds -/

theorem hasKey_iff (k : String) (l : List (String × β)) :
    hasKey k l = true ↔ k ∈ l.map Prod.fst := by
  unfold hasKey
  rw [List.any_eq_true]
  constructor
  · rintro ⟨p, hp, he⟩
    exact List.mem_map.mpr ⟨p, hp, beq_iff_eq.mp he⟩
  · intro h
    rcases List.mem_map.mp h with ⟨p, hp, he⟩
    exact ⟨p, hp, beq_iff_eq.mpr he⟩

theorem updAssoc_map_fst (k : String) (f : β → β) (l : List (String × β)) :
    (updAssoc k f l).map Prod.fst = l.map Prod.fst := by
  induction l with
  | nil => rfl
  | cons p rest ih =>
    rcases p with ⟨k', v⟩
    simp only [updAssoc]
    split
    · rfl
    · simp [ih]

theorem mem_updAssoc (k : String) (f : β → β) (l : List (String × β))
    (hnd : (l.map Prod.fst).Nodup) (p : String × β) (hp : p ∈ updAssoc k f l) :
    (p.1 ≠ k ∧ p ∈ l) ∨ (p.1 = k ∧ ∃ b, (k, b) ∈ l ∧ p.2 = f b) := by
  induction l with
  | nil => cases hp
  | cons q rest ih =>
    rcases q with ⟨k', v⟩
    simp only [List.map_cons, List.nodup_cons] at hnd
    simp only [updAssoc] at hp
    split at hp
    · rename_i hk
      have hk' : k' = k := beq_iff_eq.mp hk
      rcases List.mem_cons.mp hp with rfl | hmem
      · exact Or.inr ⟨hk', v, by rw [hk'] at *; exact ⟨List.mem_cons_self _ _, rfl⟩⟩
      · left
        refine ⟨?_, List.mem_cons_of_mem _ hmem⟩
        intro hc
        apply hnd.1
        rw [hk', ← hc]
        exact List.mem_map.mpr ⟨p, hmem, rfl⟩
    · rename_i hk
      have hk' : k' ≠ k := fun h => hk (beq_iff_eq.mpr h)
      rcases List.mem_cons.mp hp with rfl | hmem
      · exact Or.inl ⟨hk', List.mem_cons_self _ _⟩
      · rcases ih hnd.2 hmem with ⟨h1, h2⟩ | ⟨h1, b, hb, he⟩
        · exact Or.inl ⟨h1, List.mem_cons_of_mem _ h2⟩
        · exact Or.inr ⟨h1, b, List.mem_cons_of_mem _ hb, he⟩

/-- Invariant of the `forEach`-into-an-object builds: after processing
`processed`, the accumulated association list has the keys of `processed`
in first-encounter order, and each entry is the `init`/`push` fold over
the records of its key in input order. -/
def GroupInv (key : α → String) (init : α → β) (push : β → α → β)
    (processed : List α) (acc : List (String × β)) : Prop :=
  acc.map Prod.fst = firstSeen (processed.map key) ∧
  ∀ p ∈ acc, ∃ x xs, processed.filter (fun a => key a == p.1) = x :: xs ∧
    p.2 = List.foldl push (init x) xs

theorem groupStep_inv (key : α → String) (init : α → β) (push : β → α → β)
    (processed : List α) (acc : List (String × β))
    (h : GroupInv key init push processed acc) (a : α) :
    GroupInv key init push (processed ++ [a]) (groupStep key init push acc a) := by
  rcases h with ⟨hkeys, hval⟩
  have hnd : (acc.map Prod.fst).Nodup := hkeys ▸ nodup_firstSeen _
  have hmk : (processed ++ [a]).map key = processed.map key ++ [key a] := by simp
  unfold groupStep
  split
  · rename_i hpresent
    have hmem : key a ∈ acc.map Prod.fst := (hasKey_iff _ _).mp hpresent
    have hmemp : key a ∈ processed.map key := by
      rw [hkeys] at hmem
      exact (mem_firstSeen _ _).mp hmem
    constructor
    · rw [updAssoc_map_fst, hkeys, hmk, firstSeen_append_singleton, if_pos hmemp]
    · intro p hp
      rcases mem_updAssoc _ _ _ hnd p hp with ⟨hne, hmem'⟩ | ⟨heq, b, hb, he⟩
      · rcases hval p hmem' with ⟨x, xs, hf, hv⟩
        refine ⟨x, xs, ?_, hv⟩
        rw [List.filter_append, hf, List.filter_cons]
        rw [if_neg (by simp [heq_iff_eq, hne.symm]), List.filter_nil, List.append_nil]
      · rcases hval (key a, b) hb with ⟨x, xs, hf, hv⟩
        have hf' : processed.filter (fun y => key y == key a) = x :: xs := hf
        have hv' : b = List.foldl push (init x) xs := hv
        refine ⟨x, xs ++ [a], ?_, ?_⟩
        · rw [heq, List.filter_append, hf']
          simp
        · rw [he, hv', List.foldl_append]
          rfl
  · rename_i habsent
    have hmem : key a ∉ acc.map Prod.fst := fun hc => habsent ((hasKey_iff _ _).mpr hc)
    have hmemp : key a ∉ processed.map key := by
      rw [hkeys] at hmem
      exact fun hc => hmem ((mem_firstSeen _ _).mpr hc)
    constructor
    · have hlhs : (acc ++ [(key a, init a)]).map Prod.fst
          = acc.map Prod.fst ++ [key a] := by simp
      rw [hlhs, hkeys, hmk, firstSeen_append_singleton, if_neg hmemp]
    · intro p hp
      rcases List.mem_append.mp hp with hmem' | hnew
      · rcases hval p hmem' with ⟨x, xs, hf, hv⟩
        refine ⟨x, xs, ?_, hv⟩
        have hne : key a ≠ p.1 := by
          intro hc
          apply hmemp
          apply (mem_firstSeen _ _).mp
          rw [← hkeys, hc]
          exact List.mem_map.mpr ⟨p, hmem', rfl⟩
        rw [List.filter_append, hf, List.filter_cons]
        rw [if_neg (by simp [hne]), List.filter_nil, List.append_nil]
      · have hpe : p = (key a, init a) := by simpa using hnew
        subst hpe
        refine ⟨a, [], ?_, rfl⟩
        have hnil : processed.filter (fun x => key x == key a) = [] := by
          rw [List.filter_eq_nil_iff]
          intro x hx hc
          exact hmemp (List.mem_map.mpr ⟨x, hx, beq_iff_eq.mp hc⟩)
        rw [List.filter_append, hnil]
        simp

theorem groupBy_inv (key : α → String) (init : α → β) (push : β → α → β)
    (l : List α) : ∀ (processed : List α) (acc : List (String × β)),
    GroupInv key init push processed acc →
    GroupInv key init push (processed ++ l) (l.foldl (groupStep key init push) acc) := by
  induction l with
  | nil => intro processed acc h; simpa using h
  | cons x xs ih =>
    intro processed acc h
    simp only [List.foldl_cons]
    have := ih (processed ++ [x]) _ (groupStep_inv key init push processed acc h x)
    simpa using this

/-- Master characterization of the keyed builds. -/
theorem groupBy_spec (key : α → String) (init : α → β) (push : β → α → β)
    (l : List α) :
    (groupBy key init push l).map Prod.fst = firstSeen (l.map key) ∧
    ∀ p ∈ groupBy key init push l, ∃ x xs,
      l.filter (fun a => key a == p.1) = x :: xs ∧
      p.2 = List.foldl push (init x) xs := by
  have h0 : GroupInv key init push [] [] := by
    constructor
    · rfl
    · intro p hp; cases hp
  have h1 := groupBy_inv key init push l [] [] h0
  simp only [List.nil_append] at h1
  exact h1

theorem groupBy_keys_nodup (key : α → String) (init : α → β) (push : β → α → β)
    (l : List α) : ((groupBy key init push l).map Prod.fst).Nodup := by
  rw [(groupBy_spec key init push l).1]
  exact nodup_firstSeen _

/-! ## Partition permutation: concatenating the per-key filters -/

theorem joinFilters_perm (key : α → String) (ks : List String) :
    ∀ (l : List α), ks.Nodup → (∀ a ∈ l, key a ∈ ks) →
    (ks.flatMap (fun k => l.filter (fun a => key a == k))).Perm l := by
  induction ks with
  | nil =>
    intro l _ hcov
    have : l = [] := by
      cases l with
      | nil => rfl
      | cons x xs => exact absurd (hcov x (List.mem_cons_self _ _)) (by simp)
    subst this
    simp
  | cons k ks ih =>
    intro l hnd hcov
    rcases List.nodup_cons.mp hnd with ⟨hk, hnd'⟩
    rw [List.flatMap_cons]
    have hcongr : ∀ k' ∈ ks,
        l.filter (fun a => key a == k') =
        (l.filter (fun a => !(key a == k))).filter (fun a => key a == k') := by
      intro k' hk'
      rw [List.filter_filter]
      apply List.filter_congr
      intro a _
      cases hak : key a == k'
      · simp
      · have : key a = k' := beq_iff_eq.mp hak
        have hne : ¬ (key a == k) = true := by
          rw [beq_iff_eq, this]
          intro hc
          exact hk (hc ▸ hk')
        simp [hne]
    have hmap : ks.flatMap (fun k' => l.filter (fun a => key a == k')) =
        ks.flatMap (fun k' => (l.filter (fun a => !(key a == k))).filter
          (fun a => key a == k')) := by
      rw [List.flatMap_def, List.flatMap_def, List.map_congr_left hcongr]
    rw [hmap]
    have hcov' : ∀ a ∈ l.filter (fun a => !(key a == k)), key a ∈ ks := by
      intro a ha
      rcases List.mem_filter.mp ha with ⟨hal, hkn⟩
      rcases List.mem_cons.mp (hcov a hal) with h | h
      · exfalso
        simp only [Bool.not_eq_true'] at hkn
        rw [h] at hkn
        simp at hkn
      · exact h
    refine (List.Perm.append_left _ (ih _ hnd' hcov')).trans ?_
    exact List.filter_append_perm _ l

/-! ## Sum plumbing -/

theorem foldl_amount_from (l : List Expense) : ∀ s : ℚ,
    l.foldl (fun t e => t + e.amount) s = s + (l.map (fun e => e.amount)).sum := by
  induction l with
  | nil => intro s; simp
  | cons x xs ih =>
    intro s
    simp only [List.foldl_cons, List.map_cons, List.sum_cons]
    rw [ih (s + x.amount)]
    ring

theorem sumAmounts_eq (l : List Expense) :
    sumAmounts l = (l.map (fun e => e.amount)).sum := by
  unfold sumAmounts
  simpa using foldl_amount_from l 0

theorem sumAmounts_perm {l₁ l₂ : List Expense} (h : l₁.Perm l₂) :
    sumAmounts l₁ = sumAmounts l₂ := by
  rw [sumAmounts_eq, sumAmounts_eq]
  exact (h.map _).sum_eq

theorem sumAmounts_append (l₁ l₂ : List Expense) :
    sumAmounts (l₁ ++ l₂) = sumAmounts l₁ + sumAmounts l₂ := by
  rw [sumAmounts_eq, sumAmounts_eq, sumAmounts_eq, List.map_append, List.sum_append]

/-! ## Fold-shape helpers for the three builds -/

theorem foldl_catPush (xs : List Expense) : ∀ g0 : CatGroup,
    xs.foldl (fun g e => CatGroup.mk g.display (g.items ++ [e])) g0
      = ⟨g0.display, g0.items ++ xs⟩ := by
  induction xs with
  | nil => intro g0; simp
  | cons x xs ih =>
    intro g0
    simp only [List.foldl_cons]
    rw [ih ⟨g0.display, g0.items ++ [x]⟩]
    simp

theorem foldl_appendPush (ys : List Expense) : ∀ l0 : List Expense,
    ys.foldl (fun l e => l ++ [e]) l0 = l0 ++ ys := by
  induction ys with
  | nil => intro l0; simp
  | cons y ys ih =>
    intro l0
    simp only [List.foldl_cons]
    rw [ih (l0 ++ [y])]
    simp

theorem flatMap_perm_congr (l : List γ) (f g : γ → List δ)
    (h : ∀ x ∈ l, (f x).Perm (g x)) : (l.flatMap f).Perm (l.flatMap g) := by
  induction l with
  | nil => simp
  | cons x xs ih =>
    rw [List.flatMap_cons, List.flatMap_cons]
    exact List.Perm.append (h x (List.mem_cons_self _ _))
      (ih fun y hy => h y (List.mem_cons_of_mem _ hy))

theorem flatMap_perm_left {l₁ l₂ : List γ} (h : l₁.Perm l₂) (f : γ → List δ) :
    (l₁.flatMap f).Perm (l₂.flatMap f) := by
  rw [List.flatMap_def, List.flatMap_def]
  exact (h.map f).flatten

/-! ## Category build: entry characterization and partition -/

theorem catEntry_spec (R : List Expense) (p : String × CatGroup)
    (hp : p ∈ expensesByCategory R) :
    ∃ x xs, R.filter (fun e => catKey e == p.1) = x :: xs ∧
      p.2.display = x.category ∧ p.2.items = x :: xs := by
  rcases (groupBy_spec _ _ _ R).2 p hp with ⟨x, xs, hf, hv⟩
  refine ⟨x, xs, hf, ?_, ?_⟩
  · rw [hv, foldl_catPush]
  · rw [hv, foldl_catPush]
    simp

theorem expensesByCategory_keys (R : List Expense) :
    (expensesByCategory R).map Prod.fst = firstSeen (R.map catKey) :=
  (groupBy_spec _ _ _ R).1

theorem expensesByMonth_keys (R : List Expense) :
    (expensesByMonth R).map Prod.fst = firstSeen (R.map monthKeyOf) :=
  (groupBy_spec _ _ _ R).1

theorem monthlyTotals_keys (R : List Expense) :
    (monthlyTotals R).map Prod.fst = firstSeen (R.map monthKeyOf) :=
  (groupBy_spec _ _ _ R).1

theorem catEntry_key (R : List Expense) (p : String × CatGroup)
    (hp : p ∈ expensesByCategory R) : p.1 = lowerStr p.2.display := by
  rcases catEntry_spec R p hp with ⟨x, xs, hf, hd, _⟩
  have hx : x ∈ R.filter (fun e => catKey e == p.1) := by
    rw [hf]; exact List.mem_cons_self _ _
  have := (List.mem_filter.mp hx).2
  rw [hd, ← beq_iff_eq.mp this]
  rfl

theorem catEntry_items_filter (R : List Expense) (p : String × CatGroup)
    (hp : p ∈ expensesByCategory R) :
    p.2.items = R.filter (fun e => catKey e == p.1) := by
  rcases catEntry_spec R p hp with ⟨x, xs, hf, _, hi⟩
  rw [hf, hi]

theorem catEntries_flat_perm (R : List Expense) :
    ((expensesByCategory R).flatMap (fun p => p.2.items)).Perm R := by
  have h1 : (expensesByCategory R).flatMap (fun p => p.2.items)
      = (expensesByCategory R).flatMap (fun p => R.filter (fun e => catKey e == p.1)) := by
    rw [List.flatMap_def, List.flatMap_def]
    congr 1
    exact List.map_congr_left fun p hp => catEntry_items_filter R p hp
  have h2 : (expensesByCategory R).flatMap (fun p => R.filter (fun e => catKey e == p.1))
      = ((expensesByCategory R).map Prod.fst).flatMap
          (fun k => R.filter (fun e => catKey e == k)) := by
    rw [List.flatMap_def, List.flatMap_def, List.map_map]
    rfl
  rw [h1, h2, expensesByCategory_keys]
  exact joinFilters_perm catKey _ R (nodup_firstSeen _)
    (fun e he => (mem_firstSeen _ _).mpr (List.mem_map.mpr ⟨e, he, rfl⟩))

/-! ## Month build: entry characterization and partition -/

theorem monthEntry_spec (R : List Expense) (p : String × List (String × List Expense))
    (hp : p ∈ expensesByMonth R) :
    ∃ x xs, R.filter (fun e => monthKeyOf e == p.1) = x :: xs ∧
      p.2 = groupBy catKey (fun e => [e]) (fun l e => l ++ [e]) (x :: xs) := by
  rcases (groupBy_spec _ _ _ R).2 p hp with ⟨x, xs, hf, hv⟩
  exact ⟨x, xs, hf, hv⟩

theorem cellEntry_spec (l : List Expense) (c : String × List Expense)
    (hc : c ∈ groupBy catKey (fun e => [e]) (fun t e => t ++ [e]) l) :
    ∃ y ys, l.filter (fun e => catKey e == c.1) = y :: ys ∧ c.2 = y :: ys := by
  rcases (groupBy_spec _ _ _ l).2 c hc with ⟨y, ys, hf, hv⟩
  refine ⟨y, ys, hf, ?_⟩
  rw [hv, foldl_appendPush]
  rfl

theorem cellEntry_items_filter (l : List Expense) (c : String × List Expense)
    (hc : c ∈ groupBy catKey (fun e => [e]) (fun t e => t ++ [e]) l) :
    c.2 = l.filter (fun e => catKey e == c.1) := by
  rcases cellEntry_spec l c hc with ⟨y, ys, hf, hi⟩
  rw [hf, hi]

theorem cellEntries_flat_perm (l : List Expense) :
    ((groupBy catKey (fun e => [e]) (fun t e => t ++ [e]) l).flatMap
      (fun c => c.2)).Perm l := by
  have h1 : (groupBy catKey (fun e => [e]) (fun t e => t ++ [e]) l).flatMap (fun c => c.2)
      = (groupBy catKey (fun e => [e]) (fun t e => t ++ [e]) l).flatMap
          (fun c => l.filter (fun e => catKey e == c.1)) := by
    rw [List.flatMap_def, List.flatMap_def]
    congr 1
    exact List.map_congr_left fun c hc => cellEntry_items_filter l c hc
  have h2 : (groupBy catKey (fun e => [e]) (fun t e => t ++ [e]) l).flatMap
        (fun c => l.filter (fun e => catKey e == c.1))
      = ((groupBy catKey (fun e => [e]) (fun t e => t ++ [e]) l).map Prod.fst).flatMap
          (fun k => l.filter (fun e => catKey e == k)) := by
    rw [List.flatMap_def, List.flatMap_def, List.map_map]
    rfl
  rw [h1, h2, (groupBy_spec _ _ _ l).1]
  exact joinFilters_perm catKey _ l (nodup_firstSeen _)
    (fun e he => (mem_firstSeen _ _).mpr (List.mem_map.mpr ⟨e, he, rfl⟩))

theorem monthEntry_flat_perm (R : List Expense) (p : String × List (String × List Expense))
    (hp : p ∈ expensesByMonth R) :
    (p.2.flatMap (fun c => c.2)).Perm (R.filter (fun e => monthKeyOf e == p.1)) := by
  rcases monthEntry_spec R p hp with ⟨x, xs, hf, hv⟩
  rw [hv, hf]
  exact cellEntries_flat_perm (x :: xs)

theorem monthEntries_flat_perm (R : List Expense) :
    ((expensesByMonth R).flatMap (fun p => p.2.flatMap (fun c => c.2))).Perm R := by
  refine (flatMap_perm_congr _ _ (fun p => R.filter (fun e => monthKeyOf e == p.1))
    (fun p hp => monthEntry_flat_perm R p hp)).trans ?_
  have h2 : (expensesByMonth R).flatMap (fun p => R.filter (fun e => monthKeyOf e == p.1))
      = ((expensesByMonth R).map Prod.fst).flatMap
          (fun k => R.filter (fun e => monthKeyOf e == k)) := by
    rw [List.flatMap_def, List.flatMap_def, List.map_map]
    rfl
  rw [h2, expensesByMonth_keys]
  exact joinFilters_perm monthKeyOf _ R (nodup_firstSeen _)
    (fun e he => (mem_firstSeen _ _).mpr (List.mem_map.mpr ⟨e, he, rfl⟩))

/-! ## Monthly totals: entry characterization -/

theorem mtEntry_spec (R : List Expense) (p : String × ℚ) (hp : p ∈ monthlyTotals R) :
    p.2 = sumAmounts (R.filter (fun e => monthKeyOf e == p.1)) := by
  rcases (groupBy_spec _ _ _ R).2 p hp with ⟨x, xs, hf, hv⟩
  rw [hf, hv]
  have : xs.foldl (fun v e => v + e.amount) (0 + x.amount)
      = (0 + x.amount) + (xs.map (fun e => e.amount)).sum := foldl_amount_from xs _
  rw [this, sumAmounts_eq]
  simp

/-! ## Totals over the rendered views -/

theorem sum_map_sumAmounts (L : List γ) (f : γ → List Expense) :
    (L.map (fun x => sumAmounts (f x))).sum = sumAmounts (L.flatMap f) := by
  induction L with
  | nil => simp [sumAmounts]
  | cons x xs ih =>
    rw [List.map_cons, List.sum_cons, List.flatMap_cons, sumAmounts_append, ih]

theorem sortedCategories_perm (R : List Expense) :
    (sortedCategories R).Perm ((catItemsSorted R).map (fun p => p.2)) :=
  (stableSortBy_perm _ _).trans ((jsEnumOrder_perm _).map _)

theorem monthTotal_eq (m : String × List (String × List Expense)) :
    monthTotal m = sumAmounts (m.2.flatMap (fun c => c.2)) := by
  unfold monthTotal
  rw [← List.flatMap_def]
  exact sumAmounts_perm (flatMap_perm_left (jsEnumOrder_perm m.2) _)

theorem catTotals_sum (R : List Expense) :
    ((sortedCategories R).map (fun g => categoryTotal g.items)).sum = sumAmounts R := by
  rw [((sortedCategories_perm R).map (fun g => categoryTotal g.items)).sum_eq,
    List.map_map]
  have h3 : (catItemsSorted R).map ((fun g => categoryTotal g.items) ∘ (fun p => p.2))
      = (expensesByCategory R).map (fun p => sumAmounts p.2.items) := by
    unfold catItemsSorted
    rw [List.map_map]
    apply List.map_congr_left
    intro p _
    exact sumAmounts_perm (stableSortBy_perm _ _)
  rw [h3, sum_map_sumAmounts]
  exact sumAmounts_perm (catEntries_flat_perm R)

theorem sortedMonths_perm (R : List Expense) :
    (sortedMonths R).Perm (expensesByMonth R) :=
  (stableSortBy_perm _ _).trans (jsEnumOrder_perm _)

theorem monthTotals_sum (R : List Expense) :
    ((sortedMonths R).map monthTotal).sum = sumAmounts R := by
  rw [((sortedMonths_perm R).map monthTotal).sum_eq]
  have h1 : (expensesByMonth R).map monthTotal
      = (expensesByMonth R).map (fun p => sumAmounts (p.2.flatMap (fun c => c.2))) :=
    List.map_congr_left fun p _ => monthTotal_eq p
  rw [h1, sum_map_sumAmounts]
  exact sumAmounts_perm (monthEntries_flat_perm R)

/-! ## Record preservation through the rendered views -/

theorem sortedCategories_flat_perm (R : List Expense) :
    ((sortedCategories R).flatMap (fun g => g.items)).Perm R := by
  refine (flatMap_perm_left (sortedCategories_perm R) _).trans ?_
  have h1 : ((catItemsSorted R).map (fun p => p.2)).flatMap (fun g => g.items)
      = (expensesByCategory R).flatMap
          (fun p => stableSortBy dateDescLe p.2.items) := by
    unfold catItemsSorted
    rw [List.flatMap_def, List.map_map, List.map_map, ← List.flatMap_def]
    rfl
  rw [h1]
  refine (flatMap_perm_congr (expensesByCategory R)
    (fun p => stableSortBy dateDescLe p.2.items) (fun p => p.2.items)
    (fun p _ => stableSortBy_perm _ _)).trans ?_
  exact catEntries_flat_perm R

theorem sortedMonths_flat_perm (R : List Expense) :
    ((sortedMonths R).flatMap (fun m => (monthCells m).flatMap (fun c => c.2))).Perm R := by
  refine (flatMap_perm_left (sortedMonths_perm R) _).trans ?_
  refine (flatMap_perm_congr (expensesByMonth R)
    (fun m => (monthCells m).flatMap (fun c => c.2))
    (fun p => p.2.flatMap (fun c => c.2))
    (fun p _ => flatMap_perm_left (jsEnumOrder_perm p.2) _)).trans ?_
  exact monthEntries_flat_perm R

/-! ## Chart series total -/

theorem monthValues_sum (R : List Expense) : (monthValues R).sum = sumAmounts R := by
  unfold monthValues
  rw [((jsEnumOrder_perm (monthlyTotals R)).map (fun p => p.2)).sum_eq]
  have h1 : (monthlyTotals R).map (fun p => p.2)
      = (monthlyTotals R).map
          (fun p => sumAmounts (R.filter (fun e => monthKeyOf e == p.1))) :=
    List.map_congr_left fun p hp => mtEntry_spec R p hp
  rw [h1, sum_map_sumAmounts]
  refine sumAmounts_perm ?_
  have h2 : (monthlyTotals R).flatMap (fun p => R.filter (fun e => monthKeyOf e == p.1))
      = ((monthlyTotals R).map Prod.fst).flatMap
          (fun k => R.filter (fun e => monthKeyOf e == k)) := by
    rw [List.flatMap_def, List.flatMap_def, List.map_map]
    rfl
  rw [h2, monthlyTotals_keys]
  exact joinFilters_perm monthKeyOf _ R (nodup_firstSeen _)
    (fun e he => (mem_firstSeen _ _).mpr (List.mem_map.mpr ⟨e, he, rfl⟩))

/-! ## Concrete sample records used by witnesses and counterexamples -/

/-- A plain record (category "Food", March 2024). -/
def eW : Expense := ⟨"1", "Coffee", 4, "Food", ⟨2024, 3, 1⟩, none⟩

/-- A record whose category is an ordinary word. -/
def eF : Expense := ⟨"a", "x", 1, "food", ⟨2024, 3, 1⟩, none⟩

/-- A record whose category lowercases to the canonical integer string
"42". -/
def eN : Expense := ⟨"b", "y", 2, "42", ⟨2024, 3, 2⟩, none⟩

/-- A record dated in year 500 (three decimal digits). -/
def eY : Expense := ⟨"c", "z", 1, "Misc", ⟨500, 3, 1⟩, none⟩

/-! ## Claim theorems -/

/-- C1: for every record set `R` and query `q`, the per-category totals of
`byCategory (filter R q)` sum to `sum (filter R q)`, and the per-month
totals of `byMonth (filter R q)` sum to `sum (filter R q)`. -/
theorem claim_C1 (R : List Expense) (q : String) :
    ((sortedCategories (filterExpenses R q)).map
        (fun g => categoryTotal g.items)).sum = sumAmounts (filterExpenses R q) ∧
    ((sortedMonths (filterExpenses R q)).map monthTotal).sum
      = sumAmounts (filterExpenses R q) :=
  ⟨catTotals_sum _, monthTotals_sum _⟩

/-- C2: the multiset of `id`s across all items of all groups of
`byCategory R` equals the multiset of `id`s of `R`, and the same holds
across all (month, category) cells of `byMonth R`. -/
theorem claim_C2 (R : List Expense) :
    (((sortedCategories R).flatMap (fun g => g.items)).map (fun e => e.id)).Perm
      (R.map (fun e => e.id)) ∧
    (((sortedMonths R).flatMap (fun m => (monthCells m).flatMap (fun c => c.2))).map
        (fun e => e.id)).Perm (R.map (fun e => e.id)) :=
  ⟨(sortedCategories_flat_perm R).map _, (sortedMonths_flat_perm R).map _⟩

/-- C10: the chart series values of the dashboard always sum to the
displayed grand total, both being computed from the unfiltered records,
for every record set and every active search term. -/
theorem claim_C10 (R : List Expense) (q : String) :
    ((dashboard R q).chartValues).sum = (dashboard R q).total := by
  show (monthValues R).sum = totalSpent R
  rw [monthValues_sum]
  rfl

/-- C3: the empty query returns the input unchanged; a non-empty query
(all-whitespace included, matched literally) keeps exactly the records
where one of title, category or notes (missing notes read as empty)
contains the lowercased query, preserving input order. -/
theorem claim_C3 (R : List Expense) (q : String) :
    (q = "" → filterExpenses R q = R) ∧
    (q ≠ "" → filterExpenses R q = R.filter (specMatches q)) := by
  constructor
  · rintro rfl
    unfold filterExpenses
    apply List.filter_eq_self.mpr
    intro e _
    simp [matchesQuery]
  · intro hq
    unfold filterExpenses
    apply List.filter_congr
    intro e _
    have hne : (q == "") = false := by
      cases h : q == ""
      · rfl
      · exact absurd (beq_iff_eq.mp h) hq
    unfold matchesQuery specMatches
    rw [if_neg (by simp [hne])]
    cases hnotes : e.notes with
    | some n => simp [hnotes]
    | none =>
      have hq' : q.data ≠ [] := fun hc => hq ((string_data_eq_nil_iff q).mp hc)
      have hlq : (lowerStr q).data ≠ [] := by
        rw [lowerStr_data]
        simpa using hq'
      have hrhs : strIncludes (lowerStr (Option.getD none "")) (lowerStr q) = false := by
        show subList (lowerStr q).data (lowerStr (Option.getD none "")).data = false
        have : (lowerStr (Option.getD none "")).data = [] := rfl
        rw [this, subList_nil]
        cases hd : (lowerStr q).data
        · exact absurd hd hlq
        · rfl
      rw [hrhs]
      simp

/-- Witness for C3 at a concrete record set: the empty query leaves the
input unchanged and a non-empty query agrees with the spec predicate. -/
theorem claim_C3_witness :
    filterExpenses [eW] "" = [eW] ∧
    filterExpenses [eW] "bus" = [eW].filter (specMatches "bus") :=
  ⟨(claim_C3 [eW] "").1 rfl, (claim_C3 [eW] "bus").2 (by decide)⟩

/-! ## Category view: membership and key facts -/

theorem sortedCategories_mem (R : List Expense) (g : CatGroup)
    (hg : g ∈ sortedCategories R) :
    ∃ p ∈ expensesByCategory R, g.display = p.2.display ∧
      g.items = stableSortBy dateDescLe p.2.items := by
  unfold sortedCategories at hg
  have h1 := (stableSortBy_perm catLe _).mem_iff.mp hg
  rcases List.mem_map.mp h1 with ⟨q, hq, rfl⟩
  have h2 := (jsEnumOrder_perm (catItemsSorted R)).mem_iff.mp hq
  unfold catItemsSorted at h2
  rcases List.mem_map.mp h2 with ⟨p, hp, rfl⟩
  exact ⟨p, hp, rfl, rfl⟩

theorem sortedCategories_keys_nodup (R : List Expense) :
    ((sortedCategories R).map (fun g => lowerStr g.display)).Nodup := by
  have hperm : ((sortedCategories R).map (fun g => lowerStr g.display)).Perm
      (((catItemsSorted R).map (fun p => p.2)).map (fun g => lowerStr g.display)) :=
    (sortedCategories_perm R).map _
  refine hperm.symm.nodup ?_
  have he : ((catItemsSorted R).map (fun p => p.2)).map (fun g => lowerStr g.display)
      = (expensesByCategory R).map (fun p => lowerStr p.2.display) := by
    unfold catItemsSorted
    rw [List.map_map, List.map_map]
    rfl
  have he2 : (expensesByCategory R).map (fun p => lowerStr p.2.display)
      = (expensesByCategory R).map Prod.fst :=
    List.map_congr_left fun p hp => (catEntry_key R p hp).symm
  rw [he, he2, expensesByCategory_keys]
  exact nodup_firstSeen _

/-- C4: `byCategory` groups two records together iff their categories are
equal after lowercasing, and each group's display label is the verbatim
category text of the group's first record in input order. -/
theorem claim_C4 (R : List Expense) :
    ((sortedCategories R).map (fun g => lowerStr g.display)).Nodup ∧
    (∀ g ∈ sortedCategories R,
      g.items.Perm (R.filter (fun e => lowerStr e.category == lowerStr g.display)) ∧
      (R.filter (fun e => lowerStr e.category == lowerStr g.display)).head?.map
        (fun e => e.category) = some g.display) ∧
    (∀ e ∈ R, ∃ g ∈ sortedCategories R, e ∈ g.items) := by
  refine ⟨sortedCategories_keys_nodup R, ?_, ?_⟩
  · intro g hg
    rcases sortedCategories_mem R g hg with ⟨p, hp, hd, hi⟩
    rcases catEntry_spec R p hp with ⟨x, xs, hf, hxd, hxi⟩
    have hkey : p.1 = lowerStr g.display := by
      rw [hd]
      exact catEntry_key R p hp
    have hfilter : R.filter (fun e => lowerStr e.category == lowerStr g.display)
        = R.filter (fun e => catKey e == p.1) := by
      rw [hkey]
      rfl
    constructor
    · rw [hi, hfilter, ← catEntry_items_filter R p hp]
      exact stableSortBy_perm _ _
    · rw [hfilter, hf]
      show Option.map (fun e => e.category) (some x) = some g.display
      rw [hd, hxd]
      rfl
  · intro e he
    have h1 := (sortedCategories_flat_perm R).mem_iff.mpr he
    rcases List.mem_flatMap.mp h1 with ⟨g, hg, hge⟩
    exact ⟨g, hg, hge⟩

/-! ## Category view: ordering of the groups -/

theorem length_filter_le_one (l : List γ) (f : γ → String)
    (h : l.Pairwise (fun a b => f a ≠ f b)) (s : String) :
    (l.filter (fun x => f x == s)).length ≤ 1 := by
  induction l with
  | nil => simp
  | cons x xs ih =>
    rcases List.pairwise_cons.mp h with ⟨hx, hxs⟩
    rw [List.filter_cons]
    split
    · rename_i hfx
      have hnil : xs.filter (fun y => f y == s) = [] := by
        rw [List.filter_eq_nil_iff]
        intro y hy hfy
        exact hx y hy (by rw [beq_iff_eq.mp hfx, beq_iff_eq.mp hfy])
      simp [hnil]
    · exact ih hxs

/-- C8: the groups of `byCategory` are strictly ascending in the
case-folded display label under the (code-point) lexicographic order used
to model `localeCompare`; as a consequence no two distinct groups share a
case-folded label, making the equal-label tie-break vacuous. -/
theorem claim_C8 (R : List Expense) :
    (sortedCategories R).Pairwise (fun g1 g2 =>
      charListLe (lowerStr g1.display).data (lowerStr g2.display).data = true ∧
      lowerStr g1.display ≠ lowerStr g2.display) ∧
    ∀ s : String, ((sortedCategories R).filter
      (fun g => lowerStr g.display == s)).length ≤ 1 := by
  have htot : ∀ a b : CatGroup, catLe a b = true ∨ catLe b a = true := fun a b =>
    charListLe_total _ _
  have htrans : ∀ a b c : CatGroup,
      catLe a b = true → catLe b c = true → catLe a c = true :=
    fun a b c => charListLe_trans _ _ _
  have hsorted : (sortedCategories R).Pairwise (fun g1 g2 => catLe g1 g2 = true) :=
    stableSortBy_pairwise catLe htot htrans _
  have hnd := sortedCategories_keys_nodup R
  have hnd' : ((sortedCategories R).map (fun g => lowerStr g.display)).Pairwise
      (fun a b => a ≠ b) := hnd
  have hne : (sortedCategories R).Pairwise
      (fun g1 g2 => lowerStr g1.display ≠ lowerStr g2.display) :=
    List.pairwise_map.mp hnd'
  exact ⟨hsorted.and hne, fun s => length_filter_le_one _ _ hne s⟩

/-! ## Category view: item order inside a group -/

theorem dateDescLe_total : ∀ a b : Expense,
    dateDescLe a b = true ∨ dateDescLe b a = true := by
  intro a b
  unfold dateDescLe
  rcases Nat.le_total (dateVal b.date) (dateVal a.date) with h | h
  · exact Or.inl (decide_eq_true h)
  · exact Or.inr (decide_eq_true h)

theorem dateDescLe_trans : ∀ a b c : Expense, dateDescLe a b = true →
    dateDescLe b c = true → dateDescLe a c = true := by
  intro a b c hab hbc
  unfold dateDescLe at *
  exact decide_eq_true (Nat.le_trans (of_decide_eq_true hbc) (of_decide_eq_true hab))

theorem dateVal_le_iff (d1 d2 : CalDate) (h1 : validDate d1) (h2 : validDate d2) :
    dateVal d1 ≤ dateVal d2 ↔
      d1.year < d2.year ∨ (d1.year = d2.year ∧ (d1.month < d2.month ∨
        (d1.month = d2.month ∧ d1.day ≤ d2.day))) := by
  rcases h1 with ⟨a1, a2, a3, a4⟩
  rcases h2 with ⟨b1, b2, b3, b4⟩
  unfold dateVal
  omega

/-- C7: inside each `byCategory` group, items are sorted by date
descending, and records with equal dates keep their relative input order
(the items of a group being exactly the records of its category in input
order before the stable sort). -/
theorem claim_C7 (R : List Expense) (g : CatGroup) (hg : g ∈ sortedCategories R)
    (hval : ∀ e ∈ R, validDate e.date) :
    g.items.Pairwise (fun a b =>
      b.date.year < a.date.year ∨ (b.date.year = a.date.year ∧
        (b.date.month < a.date.month ∨ (b.date.month = a.date.month ∧
          b.date.day ≤ a.date.day)))) ∧
    ∀ d : CalDate, g.items.filter (fun e => e.date == d)
      = (R.filter (fun e => lowerStr e.category == lowerStr g.display)).filter
          (fun e => e.date == d) := by
  rcases sortedCategories_mem R g hg with ⟨p, hp, hd, hi⟩
  have hitems := catEntry_items_filter R p hp
  have hmemR : ∀ e ∈ g.items, e ∈ R := by
    intro e he
    rw [hi] at he
    have := (stableSortBy_perm dateDescLe p.2.items).mem_iff.mp he
    rw [hitems] at this
    exact (List.mem_filter.mp this).1
  constructor
  · have hsorted : g.items.Pairwise (fun a b => dateDescLe a b = true) := by
      rw [hi]
      exact stableSortBy_pairwise dateDescLe dateDescLe_total dateDescLe_trans _
    refine hsorted.imp_of_mem ?_
    intro a b ha hb hab
    have hva := hval a (hmemR a ha)
    have hvb := hval b (hmemR b hb)
    have : dateVal b.date ≤ dateVal a.date := of_decide_eq_true hab
    exact (dateVal_le_iff b.date a.date hvb hva).mp this
  · intro d
    have hkey : p.1 = lowerStr g.display := by
      rw [hd]
      exact catEntry_key R p hp
    have hstable : (stableSortBy dateDescLe p.2.items).filter (fun e => e.date == d)
        = p.2.items.filter (fun e => e.date == d) := by
      apply stableSortBy_filter dateDescLe _ dateDescLe_total dateDescLe_trans
      intro a b hda hdb
      have ha : a.date = d := by exact beq_iff_eq.mp hda
      have hb : b.date = d := by exact beq_iff_eq.mp hdb
      constructor
      · exact decide_eq_true (by rw [ha, hb])
      · exact decide_eq_true (by rw [ha, hb])
    rw [hi, hstable, hitems, hkey]
    rfl

/-- Witness for C7 at a one-record set: the single "Food" group has
date-descending items. -/
theorem claim_C7_witness :
    (⟨"Food", [eW]⟩ : CatGroup).items.Pairwise (fun a b =>
      b.date.year < a.date.year ∨ (b.date.year = a.date.year ∧
        (b.date.month < a.date.month ∨ (b.date.month = a.date.month ∧
          b.date.day ≤ a.date.day)))) :=
  (claim_C7 [eW] ⟨"Food", [eW]⟩ (by decide) (by decide)).1

/-! ## Chart series: label order and correspondence -/

theorem monthlyTotals_no_index_keys (R : List Expense) :
    ∀ p ∈ monthlyTotals R, isIndexKey p.1 = false := by
  intro p hp
  have h1 : p.1 ∈ (monthlyTotals R).map Prod.fst := List.mem_map.mpr ⟨p, hp, rfl⟩
  rw [monthlyTotals_keys] at h1
  rcases List.mem_map.mp ((mem_firstSeen _ _).mp h1) with ⟨e, _, hkey⟩
  rw [← hkey]
  exact isIndexKey_monthLabel e.date

theorem monthlyTotals_enum_id (R : List Expense) :
    jsEnumOrder (monthlyTotals R) = monthlyTotals R :=
  jsEnumOrder_eq_self _ (monthlyTotals_no_index_keys R)

/-- C6: the chart series is a function of the unfiltered records only,
emits one label/value pair per month bucket in first-encounter order with
`values[i]` the total of bucket `labels[i]`, and is empty on empty
input. -/
theorem claim_C6 (R : List Expense) (q : String) :
    (dashboard R q).chartLabels = monthLabels R ∧
    (dashboard R q).chartValues = monthValues R ∧
    monthLabels R = firstSeen (R.map monthKeyOf) ∧
    monthValues R = (monthLabels R).map
      (fun L => sumAmounts (R.filter (fun e => monthKeyOf e == L))) ∧
    monthLabels [] = [] ∧ monthValues [] = [] := by
  refine ⟨rfl, rfl, ?_, ?_, rfl, rfl⟩
  · unfold monthLabels
    rw [monthlyTotals_enum_id, monthlyTotals_keys]
  · unfold monthValues monthLabels
    rw [monthlyTotals_enum_id]
    have h1 : (monthlyTotals R).map (fun p => p.2)
        = (monthlyTotals R).map
            (fun p => sumAmounts (R.filter (fun e => monthKeyOf e == p.1))) :=
      List.map_congr_left fun p hp => mtEntry_spec R p hp
    rw [h1, List.map_map]
    rfl

/-! ## Month view: bucket membership and ordering -/

theorem monthDescLe_total : ∀ a b : String × List (String × List Expense),
    monthDescLe a b = true ∨ monthDescLe b a = true := by
  intro a b
  unfold monthDescLe
  rcases Nat.le_total (labelVal b.1) (labelVal a.1) with h | h
  · exact Or.inl (decide_eq_true h)
  · exact Or.inr (decide_eq_true h)

theorem monthDescLe_trans : ∀ a b c : String × List (String × List Expense),
    monthDescLe a b = true → monthDescLe b c = true → monthDescLe a c = true := by
  intro a b c hab hbc
  unfold monthDescLe at *
  exact decide_eq_true (Nat.le_trans (of_decide_eq_true hbc) (of_decide_eq_true hab))

theorem monthLabel_congr (d1 d2 : CalDate) (hy : d1.year = d2.year)
    (hm : d1.month = d2.month) : monthLabel d1 = monthLabel d2 := by
  unfold monthLabel
  rw [hy, hm]

theorem monthEntry_witness_record (R : List Expense)
    (m : String × List (String × List Expense)) (hm : m ∈ expensesByMonth R) :
    ∃ x ∈ R, m.1 = monthKeyOf x := by
  rcases monthEntry_spec R m hm with ⟨x, xs, hf, _⟩
  have hx : x ∈ R.filter (fun e => monthKeyOf e == m.1) := by
    rw [hf]
    exact List.mem_cons_self _ _
  exact ⟨x, (List.mem_filter.mp hx).1,
    (beq_iff_eq.mp (List.mem_filter.mp hx).2).symm⟩

theorem monthFlat_mem (R : List Expense)
    (m : String × List (String × List Expense)) (hm : m ∈ expensesByMonth R)
    (e : Expense) (he : e ∈ (monthCells m).flatMap (fun c => c.2)) :
    e ∈ R.filter (fun x => monthKeyOf x == m.1) := by
  rcases List.mem_flatMap.mp he with ⟨c, hc, hce⟩
  have hc' : c ∈ m.2 := (jsEnumOrder_perm m.2).mem_iff.mp hc
  rcases monthEntry_spec R m hm with ⟨x, xs, hf, hv⟩
  rw [hv] at hc'
  rw [cellEntry_items_filter _ c hc'] at hce
  have h1 := (List.mem_filter.mp hce).1
  rw [hf]
  exact h1

theorem monthFlat_covers (R : List Expense) (e : Expense) (he : e ∈ R) :
    ∃ m ∈ expensesByMonth R, e ∈ (monthCells m).flatMap (fun c => c.2) ∧
      m.1 = monthKeyOf e := by
  have hk : monthKeyOf e ∈ (expensesByMonth R).map Prod.fst := by
    rw [expensesByMonth_keys]
    exact (mem_firstSeen _ _).mpr (List.mem_map.mpr ⟨e, he, rfl⟩)
  rcases List.mem_map.mp hk with ⟨m, hm, hkey⟩
  rcases monthEntry_spec R m hm with ⟨x, xs, hf, hv⟩
  have hex : e ∈ (x :: xs) := by
    rw [← hf]
    exact List.mem_filter.mpr ⟨he, beq_iff_eq.mpr hkey.symm⟩
  have hck : catKey e ∈ (groupBy catKey (fun e' => [e'])
      (fun t e' => t ++ [e']) (x :: xs)).map Prod.fst := by
    rw [(groupBy_spec _ _ _ _).1]
    exact (mem_firstSeen _ _).mpr (List.mem_map.mpr ⟨e, hex, rfl⟩)
  rcases List.mem_map.mp hck with ⟨c, hc, hckey⟩
  have hc2 : c ∈ m.2 := by
    rw [hv]
    exact hc
  refine ⟨m, hm, List.mem_flatMap.mpr ⟨c, ?_, ?_⟩, hkey⟩
  · exact (jsEnumOrder_perm m.2).mem_iff.mpr hc2
  · rw [cellEntry_items_filter _ c (hv ▸ hc2)]
    exact List.mem_filter.mpr ⟨hex, beq_iff_eq.mpr hckey.symm⟩

/-- C5 (amended): `byMonth` buckets records by (month, year), labels each
bucket with the long month name and the un-padded decimal year, and emits
the buckets in descending calendar order (year, then month), not by string
comparison of the labels. -/
theorem claim_C5_amended (R : List Expense)
    (hval : ∀ e ∈ R, 1 ≤ e.date.month ∧ e.date.month ≤ 12) :
    ((sortedMonths R).map Prod.fst).Nodup ∧
    (∀ m ∈ sortedMonths R, ∀ e, e ∈ (monthCells m).flatMap (fun c => c.2) →
      m.1 = monthLabel e.date) ∧
    (∀ e ∈ R, ∃ m ∈ sortedMonths R, e ∈ (monthCells m).flatMap (fun c => c.2) ∧
      m.1 = monthLabel e.date) ∧
    (∀ m ∈ sortedMonths R, ∀ e1, e1 ∈ (monthCells m).flatMap (fun c => c.2) →
      ∀ e2, e2 ∈ (monthCells m).flatMap (fun c => c.2) →
        e1.date.year = e2.date.year ∧ e1.date.month = e2.date.month) ∧
    (sortedMonths R).Pairwise (fun a b => ∃ ya ma yb mb,
      parseMonthLabel a.1 = some (ya, ma) ∧ parseMonthLabel b.1 = some (yb, mb) ∧
      (yb < ya ∨ (yb = ya ∧ mb < ma))) := by
  have hkeysnd : ((sortedMonths R).map Prod.fst).Nodup := by
    refine (((sortedMonths_perm R).map Prod.fst).symm).nodup ?_
    rw [expensesByMonth_keys]
    exact nodup_firstSeen _
  have hhom : ∀ m ∈ sortedMonths R, ∀ e, e ∈ (monthCells m).flatMap (fun c => c.2) →
      m.1 = monthLabel e.date := by
    intro m hm e he
    have hm' := (sortedMonths_perm R).mem_iff.mp hm
    have h1 := monthFlat_mem R m hm' e he
    exact (beq_iff_eq.mp (List.mem_filter.mp h1).2).symm
  have hmemR : ∀ m ∈ sortedMonths R, ∀ e, e ∈ (monthCells m).flatMap (fun c => c.2) →
      e ∈ R := by
    intro m hm e he
    have hm' := (sortedMonths_perm R).mem_iff.mp hm
    exact (List.mem_filter.mp (monthFlat_mem R m hm' e he)).1
  refine ⟨hkeysnd, hhom, ?_, ?_, ?_⟩
  · intro e he
    rcases monthFlat_covers R e he with ⟨m, hm, hflat, hkey⟩
    exact ⟨m, (sortedMonths_perm R).mem_iff.mpr hm, hflat, hkey⟩
  · intro m hm e1 he1 e2 he2
    have hl1 := hhom m hm e1 he1
    have hl2 := hhom m hm e2 he2
    have hv1 := hval e1 (hmemR m hm e1 he1)
    have hv2 := hval e2 (hmemR m hm e2 he2)
    exact monthLabel_inj e1.date e2.date hv1.1 hv1.2 hv2.1 hv2.2 (hl1 ▸ hl2)
  · have hsorted : (sortedMonths R).Pairwise (fun a b => monthDescLe a b = true) :=
      stableSortBy_pairwise monthDescLe monthDescLe_total monthDescLe_trans _
    have hne : (sortedMonths R).Pairwise (fun a b => a.1 ≠ b.1) := by
      have h' : ((sortedMonths R).map Prod.fst).Pairwise (fun a b => a ≠ b) := hkeysnd
      exact List.pairwise_map.mp h'
    refine (hsorted.and hne).imp_of_mem ?_
    intro a b ha hb hab
    rcases monthEntry_witness_record R a ((sortedMonths_perm R).mem_iff.mp ha)
      with ⟨xa, hxa, hla⟩
    rcases monthEntry_witness_record R b ((sortedMonths_perm R).mem_iff.mp hb)
      with ⟨xb, hxb, hlb⟩
    have hva := hval xa hxa
    have hvb := hval xb hxb
    have hpa : parseMonthLabel a.1 = some (xa.date.year, xa.date.month) := by
      rw [hla]
      exact parseMonthLabel_round xa.date hva.1 hva.2
    have hpb : parseMonthLabel b.1 = some (xb.date.year, xb.date.month) := by
      rw [hlb]
      exact parseMonthLabel_round xb.date hvb.1 hvb.2
    refine ⟨xa.date.year, xa.date.month, xb.date.year, xb.date.month, hpa, hpb, ?_⟩
    have hle : labelVal b.1 ≤ labelVal a.1 := of_decide_eq_true hab.1
    have hlva : labelVal a.1 = xa.date.year * 12 + xa.date.month := by
      unfold labelVal
      rw [hpa]
    have hlvb : labelVal b.1 = xb.date.year * 12 + xb.date.month := by
      unfold labelVal
      rw [hpb]
    have hnekey : ¬ (xb.date.year = xa.date.year ∧ xb.date.month = xa.date.month) := by
      rintro ⟨hy, hmo⟩
      apply hab.2
      rw [hla, hlb]
      exact (monthLabel_congr xb.date xa.date hy hmo).symm
    rw [hlva, hlvb] at hle
    rcases hva with ⟨hva1, hva2⟩
    rcases hvb with ⟨hvb1, hvb2⟩
    by_cases hy : xb.date.year = xa.date.year
    · refine Or.inr ⟨hy, ?_⟩
      have hmne : xb.date.month ≠ xa.date.month := fun hc => hnekey ⟨hy, hc⟩
      omega
    · refine Or.inl ?_
      omega

/-- Counterexample to C5 as stated: a record dated in year 500 yields the
bucket label "March 500" whose year part has three characters, not four. -/
theorem claim_C5_counterexample :
    (sortedMonths [eY]).map Prod.fst = ["March 500"] ∧
    (splitAtSpace ("March 500").data).2.length = 3 ∧ (3 : Nat) ≠ 4 :=
  ⟨by decide, by decide, by decide⟩

/-- Witness for the amended C5 at a concrete two-month record set. -/
theorem claim_C5_amended_witness :
    ((sortedMonths [eW, eY]).map Prod.fst).Nodup :=
  (claim_C5_amended [eW, eY] (by decide)).1

/-! ## Month view: category cells inside a month -/

/-- C9 (amended): inside each month the category dictionary is built in
first-seen order of the grouping keys with each cell holding its records
in input order; the cells are then *rendered* in JS own-property
enumeration order (`jsEnumOrder`), which moves canonical integer-string
keys to the front. -/
theorem claim_C9_amended (R : List Expense)
    (p : String × List (String × List Expense)) (hp : p ∈ sortedMonths R) :
    p.2.map Prod.fst
      = firstSeen ((R.filter (fun e => monthKeyOf e == p.1)).map catKey) ∧
    (∀ c ∈ p.2, c.2 = (R.filter (fun e => monthKeyOf e == p.1)).filter
      (fun e => catKey e == c.1)) ∧
    monthCells p = jsEnumOrder p.2 := by
  have hp' := (sortedMonths_perm R).mem_iff.mp hp
  rcases monthEntry_spec R p hp' with ⟨x, xs, hf, hv⟩
  refine ⟨?_, ?_, rfl⟩
  · rw [hv, (groupBy_spec _ _ _ _).1, hf]
  · intro c hc
    rw [hv] at hc
    rw [cellEntry_items_filter _ c hc, hf]

/-- Counterexample to C9 as stated: with categories "food" then "42" in
one month, the rendered cells enumerate "42" first (canonical array-index
key), not in first-seen order. -/
theorem claim_C9_counterexample :
    (sortedMonths [eF, eN]).map (fun p => (monthCells p).map Prod.fst)
      = [["42", "food"]] ∧
    (sortedMonths [eF, eN]).map (fun p =>
      firstSeen ((([eF, eN].filter (fun e => monthKeyOf e == p.1))).map catKey))
      = [["food", "42"]] ∧
    (["42", "food"] : List String) ≠ ["food", "42"] :=
  ⟨by decide, by decide, by decide⟩

/-- Witness for the amended C9 at the concrete two-record set. -/
theorem claim_C9_amended_witness :
    (("March 2024", [("food", [eF]), ("42", [eN])]) :
        String × List (String × List Expense)).2.map Prod.fst
      = firstSeen ((([eF, eN].filter
          (fun e => monthKeyOf e == ("March 2024", [("food", [eF]),
            ("42", [eN])]).1))).map catKey) :=
  (claim_C9_amended [eF, eN] ("March 2024", [("food", [eF]), ("42", [eN])])
    (by decide)).1
